import Mathlib

/-!
Verification of the `jsouthworth.net/go/seq` lazy-sequence library.

Each Go type and function used by the claims is shallowly embedded as an
executable Lean definition, translated from the Go source:

* `range.go`    — `rangeSeq`, `rangeNew`, `First`, `Next`
* `repeat.go`   — `repeatSeq`, `repeatSeqNew`, `infiniteRepeatSeq`, `First`, `Next`
* iterate/cycle — `iterate`, `cycle` (mutable memo state is made explicit:
  each operation returns the updated node state and the number of user-function
  invocations it performed)
* `lazy_seq.go` — `lazySeq` (state is the pair of Go fields `fn`/`seq`)
* cons/`Reduce` — the `cons` node type and the eager `Reduce` loop
* `reflect.go` + `Seq` — the conversion dispatch (Go panics become `Except.error`;
  Go strings are represented by their rune lists)
* `xfrm_seq.go` — the transducing sequence adapter; the external transducer
  step function is modelled abstractly as a state machine whose `Step` reports
  the invocations it makes of the terminal (buffer-appending) reducing action
  as a script of `(accumulator-was-reduced, value)` pairs plus a flag telling
  whether the returned accumulator is reduced.

Go `nil` sequences are `Option.none`; Go `interface{}` element values are a
type parameter (wrapped in `Option` where Go code can see a `nil` element).
-/

namespace GoSeq

/-- Pull up to `fuel` elements from an optional sequence via `fst`/`nxt`.
`none` is the Go `nil` (absence) sequence, the universal terminal state. -/
def collect {S A : Type} (fst : S → A) (nxt : S → Option S) : Nat → Option S → List A
  | _, none => []
  | 0, some _ => []
  | Nat.succ n, some s => fst s :: collect fst nxt n (nxt s)

/-! ### range.go -/

/-- Field-for-field copy of Go `rangeSeq` (`start`, `end`, `step`); the Go
field `end` is a Lean keyword so it is called `stop` here. -/
structure RangeSeq where
  start : Int
  stop : Int
  step : Int
deriving Repr, DecidableEq

/-- Go `rangeNew`: the three-way liveness rule.  Returns `none` (Go `nil`)
when the range is empty by the rule. -/
def rangeNew (start stop step : Int) : Option RangeSeq :=
  if step > 0 then
    if start ≥ stop then none else some ⟨start, stop, step⟩
  else if step < 0 then
    if start ≤ stop then none else some ⟨start, stop, step⟩
  else
    if start = stop then none else some ⟨start, stop, step⟩

/-- Go `(*rangeSeq).First`. -/
def RangeSeq.first (s : RangeSeq) : Int := s.start

/-- Go `(*rangeSeq).Next`: recompute the successor via `rangeNew`. -/
def RangeSeq.next (s : RangeSeq) : Option RangeSeq :=
  rangeNew (s.start + s.step) s.stop s.step

/-! ### repeat.go -/

/-- Go `const inf = -1`, the infinite-repetition sentinel. -/
def inf : Int := -1

/-- Go `repeatSeq` (`count`, `val`). -/
structure RepeatSeq (A : Type) where
  count : Int
  val : A
deriving Repr, DecidableEq

/-- Go `repeatSeqNew`: always returns a node, never the absence marker. -/
def repeatSeqNew {A : Type} (count : Int) (val : A) : RepeatSeq A := ⟨count, val⟩

/-- Go `infiniteRepeatSeq`. -/
def infiniteRepeatSeq {A : Type} (val : A) : RepeatSeq A := repeatSeqNew inf val

/-- Go public `Repeat` (seq.go). -/
def Repeat {A : Type} (n : Int) (x : A) : RepeatSeq A := repeatSeqNew n x

/-- Go `(*repeatSeq).First`. -/
def RepeatSeq.first {A : Type} (s : RepeatSeq A) : A := s.val

/-- Go `(*repeatSeq).Next`. -/
def RepeatSeq.next {A : Type} (s : RepeatSeq A) : Option (RepeatSeq A) :=
  if s.count > 1 then some (repeatSeqNew (s.count - 1) s.val)
  else if s.count = inf then some s
  else none

/-! ### iterate (first unnamed Go file)

The Go struct has mutable fields `realized`, `cur`, `prev` and the memoized
child pointer `next`; every operation below returns the updated node state
and the number of invocations of the user function `fn` it performed (the
per-node mutex only serializes calls and is elided). -/

/-- Go `iterate` node state. -/
inductive IterNode (A : Type) where
  | mk (realized : Bool) (cur : A) (prev : A) (next : Option (IterNode A))

/-- Go `iterateNew`: the seed node is realized with `cur = x`; `prev` and
`next` keep their Go zero values (`zeroV`, `nil`). -/
def iterateNew {A : Type} (zeroV : A) (x : A) : IterNode A :=
  .mk true x zeroV none

/-- Go `(*iterate).first` (also `First`, the lock aside): when the node is
not realized, compute `fn(prev)` and store it in `cur`.  Exactly as in the
source, `realized` is left unchanged (it is never set to `true` here). -/
def iterFirst {A : Type} (fn : A → A) : IterNode A → A × IterNode A × Nat
  | .mk true cur prev nxt => (cur, .mk true cur prev nxt, 0)
  | .mk false _ prev nxt => (fn prev, .mk false (fn prev) prev nxt, 1)

/-- Replace the memoized child pointer. -/
def IterNode.withNext {A : Type} : IterNode A → Option (IterNode A) → IterNode A
  | .mk r c p _, nxt => .mk r c p nxt

/-- Go `(*iterate).Next`: construct the child once (`s.next == nil` check);
the child's `prev` is `s.first()`, its `cur` the Go zero value. -/
def iterNext {A : Type} (fn : A → A) (zeroV : A) :
    IterNode A → IterNode A × IterNode A × Nat
  | .mk r c p (some child) => (child, .mk r c p (some child), 0)
  | .mk r c p none =>
      let res := iterFirst fn (.mk r c p none)
      let child : IterNode A := .mk false zeroV res.1 none
      (child, res.2.1.withNext (some child), res.2.2)

/-! ### cycle (first unnamed Go file) -/

/-- A Go runtime panic observed by the model (calling a method on a `nil`
interface value). -/
inductive GoPanic where
  | nilDeref
deriving Repr, DecidableEq

/-- A sequence usable as a cycle anchor/cursor in the claims: a live
`rangeSeq` or a `cycle` node; `nil` appears as `Option.none` at use
sites. -/
inductive CyS where
  | rng (r : RangeSeq)
  | cyc (all : Option CyS) (cur : Option CyS)

/-- Go `cycleSeq(all)`, reached from the public `Cycle(coll)` as
`cycleSeq(Seq(coll))`: always allocates a node, even for a `nil` anchor. -/
def cycleSeq (all : Option CyS) : CyS := .cyc all all

/-- Go `First` on these sequences.  `(*cycle).First` calls `c.seq.First()`
without a `nil` check, so it panics when the cursor is the `nil`
interface. -/
def CyS.firstE : CyS → Except GoPanic Int
  | .rng r => .ok r.first
  | .cyc _ none => .error .nilDeref
  | .cyc _ (some s) => s.firstE

/-- Go `Next` on these sequences.  `(*cycle).Next` computes
`Seq(Next(c.seq))` (the package-level `Next` maps `nil` to `nil`, and `Seq`
of a `Sequence` is the identity), resets the cursor to the anchor when that
is `nil`, and always returns a fresh cycle node. -/
def CyS.nextE : CyS → Option CyS
  | .rng r => r.next.map .rng
  | .cyc all cur =>
      let nxt : Option CyS :=
        match cur with
        | none => none
        | some s => s.nextE
      some (.cyc all (match nxt with | none => all | some s => some s))

/-- Go `Seq` applied to a cycle or range node: both implement `Sequence`
(and not `Seqable`), so conversion returns the value unchanged. -/
def cysSeqConv (s : CyS) : Option CyS := some s

/-- Go public `Range`. -/
def Range (start stop step : Int) : Option RangeSeq := rangeNew start stop step

/-- Go public `RangeUntil`. -/
def RangeUntil (stop : Int) : Option RangeSeq := Range 0 stop 1

/-- Pull up to `fuel` elements where `First` may panic; a panic aborts the
traversal with the error. -/
def collectE : Nat → Option CyS → Except GoPanic (List Int)
  | _, none => .ok []
  | 0, some _ => .ok []
  | Nat.succ n, some s => do
      let v ← s.firstE
      let r ← collectE n s.nextE
      .ok (v :: r)

/-! ### lazy_seq.go

`C` abstracts the non-thunk `Sequence` implementations; the producer
`fn func() Sequence` may return `nil`, a non-thunk sequence, or another
`*lazySeq` (itself unforced with its own producer, or already forced). -/

/-- A `Sequence` value as seen by the unwrap loop of `(*lazySeq).Seq`. -/
inductive LVal (C : Type) where
  | nilv
  | conc (s : C)
  | lazyForced (r : Option C)
  | lazyUnforced (fn : Unit → LVal C)

/-- The unwrap loop of Go `(*lazySeq).Seq`: keep type-asserting `*lazySeq`
and forcing (`tmp.Seq()`) until a non-thunk sequence or `nil` remains. -/
def unwrap {C : Type} : LVal C → Option C
  | .nilv => none
  | .conc s => some s
  | .lazyForced r => r
  | .lazyUnforced fn => unwrap (fn ())

/-- Go `lazySeq` node state: the fields `fn` (producer, dropped after the
first force) and `seq` (the memoized fully-unwrapped result). -/
structure LazyNode (C : Type) where
  fn : Option (Unit → LVal C)
  seq : Option C

/-- Go `LazySeq(fn)`. -/
def LazySeq {C : Type} (fn : Unit → LVal C) : LazyNode C := ⟨some fn, none⟩

/-- Go `(*lazySeq).Seq` (the lock elided): if the producer is present, run
it once, discard it, unwrap any chain of nested thunks, and memoize the
result.  Returns the sequence, the updated node, and the number of
invocations of this node's producer. -/
def lazyNodeSeq {C : Type} (n : LazyNode C) : Option C × LazyNode C × Nat :=
  match n.fn with
  | some f =>
      let r := unwrap (f ())
      (r, ⟨none, r⟩, 1)
  | none => (n.seq, n, 0)

/-- Go `(*lazySeq).First`: force, then return `nil` for an absent result or
delegate to the memoized sequence's `First`. -/
def lazyFirst {C E : Type} (cFirst : C → Option E) (n : LazyNode C) :
    Option E × LazyNode C × Nat :=
  let res := lazyNodeSeq n
  ((match res.1 with
    | none => none
    | some c => cFirst c), res.2.1, res.2.2)

/-- Go `(*lazySeq).Next`: force, then return `nil` for an absent result or
delegate to the memoized sequence's `Next`. -/
def lazyNext {C : Type} (cNext : C → Option C) (n : LazyNode C) :
    Option C × LazyNode C × Nat :=
  let res := lazyNodeSeq n
  ((match res.1 with
    | none => none
    | some c => cNext c), res.2.1, res.2.2)

/-- Run `k` consecutive forcing operations (each of `Seq`, `First`, `Next`
forces the node exactly like this) and add up the producer invocations. -/
def forceIter {C : Type} : LazyNode C → Nat → LazyNode C × Nat
  | n, 0 => (n, 0)
  | n, Nat.succ k =>
      let r := lazyNodeSeq n
      let rest := forceIter r.2.1 k
      (rest.1, r.2.2 + rest.2)

/-! ### cons nodes and Reduce (seq.go) -/

/-- Go `cons` (`first`, `next`). -/
inductive Cons (A : Type) where
  | mk (first : A) (next : Option (Cons A))

/-- Go `consNew` / public `Cons`. -/
def consNew {A : Type} (first : A) (next : Option (Cons A)) : Cons A :=
  .mk first next

/-- The elements of a cons chain, in order. -/
def consToList {A : Type} : Option (Cons A) → List A
  | none => []
  | some (.mk v nxt) => v :: consToList nxt

/-- The loop of Go `Reduce`: `ret = fn(ret, First(s)); s = Seq(Next(s))`
until the source is absence. -/
def reduceLoop {A B : Type} (f : B → A → B) : B → Cons A → B
  | ret, .mk v none => f ret v
  | ret, .mk v (some nxt) => reduceLoop f (f ret v) nxt

/-- Go `Reduce`, for a source already converted to the canonical finite
sequence form (a cons chain, on which `Seq` is the identity): returns
`init` unchanged when the source converts to absence (`nil`). -/
def Reduce {A B : Type} (f : B → A → B) (init : B) (coll : Option (Cons A)) : B :=
  match coll with
  | none => init
  | some s => reduceLoop f init s

/-- The reducing function of the `reduce(cons, nil, s)` law: cons the
incoming element onto the accumulated sequence (Go `Cons(input, result)`). -/
def consRF {A : Type} : Option (Cons A) → A → Option (Cons A) :=
  fun acc x => some (consNew x acc)

/-! ### reflect.go and the Seq conversion (seq.go)

`E` abstracts the host element type of slices and maps.  Go strings are
represented by their rune lists (`reflectSeq` converts a string to
`[]rune` before adapting it). -/

/-- An adapted, non-empty sequence view: Go `sliceSeq` over a slice, over
the runes of a string, or `mapSeq` over the entries of a map.  `First` on
`sliceSeq` is index 0; `Next` returns `nil` once one element remains. -/
inductive SeqRep (E : Type) where
  | sliceS (hd : E) (tl : List E)
  | runesS (hd : Char) (tl : List Char)
  | mapS (hd : E × E) (tl : List (E × E))

/-- A Go `interface{}` value as seen by the `Seq` conversion: `nil`, a
`Seqable` (whose `Seq()` yields the carried result), a value already
implementing `Sequence`, an adaptable slice/string/map, or any other value,
tagged with its Go type name (the `%T` verb). -/
inductive GoVal (E : Type) where
  | nilV
  | seqV (s : SeqRep E)
  | seqableV (s : Option (SeqRep E))
  | sliceV (elems : List E)
  | strV (runes : List Char)
  | mapV (entries : List (E × E))
  | otherV (typeName : String)

/-- The Go `%T` rendering used in the `cannot convert %T to Seq` panic. -/
def GoVal.typeName {E : Type} : GoVal E → String
  | .nilV => "<nil>"
  | .seqV _ => "Sequence"
  | .seqableV _ => "Seqable"
  | .sliceV _ => "slice"
  | .strV _ => "string"
  | .mapV _ => "map"
  | .otherV t => t

/-- The error of the Go `panic(fmt.Errorf("cannot convert %T to Seq", coll))`
in `reflectSeq`, carrying the offending type. -/
inductive ConvErr where
  | unsupportedType (typeName : String)
deriving Repr, DecidableEq

/-- Go `sliceSequence`: `nil` for an empty slice, otherwise a `sliceSeq`
view of the elements. -/
def sliceSequence {E : Type} : List E → Option (SeqRep E)
  | [] => none
  | x :: xs => some (.sliceS x xs)

/-- Go `sliceSequence(reflect.ValueOf([]rune(s)))` for a string. -/
def runeSequence {E : Type} : List Char → Option (SeqRep E)
  | [] => none
  | c :: cs => some (.runesS c cs)

/-- Go `mapSequence`: `nil` for an empty map, otherwise a `mapSeq` over the
entries. -/
def mapSequence {E : Type} : List (E × E) → Option (SeqRep E)
  | [] => none
  | e :: es => some (.mapS e es)

/-- Go `reflectSeq`: dispatch on the reflected kind; any other kind hits
the `cannot convert %T to Seq` panic. -/
def reflectSeq {E : Type} : GoVal E → Except ConvErr (Option (SeqRep E))
  | .sliceV l => .ok (sliceSequence l)
  | .strV cs => .ok (runeSequence cs)
  | .mapV es => .ok (mapSequence es)
  | v => .error (.unsupportedType v.typeName)

/-- Go `Seq` (seq.go): `nil` converts to `nil`; a `Seqable` delegates to
its `Seq()`; a `Sequence` is returned unchanged; anything else goes
through `reflectSeq`. -/
def Seq {E : Type} : GoVal E → Except ConvErr (Option (SeqRep E))
  | .nilV => .ok none
  | .seqableV s => .ok s
  | .seqV s => .ok (some s)
  | v => reflectSeq v

/-- An element yielded by an adapted sequence: a slice element, a rune, or
a map entry (Go `mapEntry` key/value pair). -/
inductive SElem (E : Type) where
  | v (x : E)
  | r (c : Char)
  | kv (p : E × E)

/-- Go `First` of the adapted views (`sliceSeq.First` is index 0,
`mapSeq.First` wraps the first key's entry). -/
def SeqRep.firstE {E : Type} : SeqRep E → SElem E
  | .sliceS h _ => .v h
  | .runesS c _ => .r c
  | .mapS p _ => .kv p

/-- Go `Next` of the adapted views: `nil` once a single element remains,
otherwise the view advanced by one. -/
def SeqRep.nextE {E : Type} : SeqRep E → Option (SeqRep E)
  | .sliceS _ [] => none
  | .sliceS _ (y :: ys) => some (.sliceS y ys)
  | .runesS _ [] => none
  | .runesS _ (c :: cs) => some (.runesS c cs)
  | .mapS _ [] => none
  | .mapS _ (e :: es) => some (.mapS e es)

/-! ### xfrm_seq.go

The external transducer library is visible to this package only through the
3-operation reducer protocol, so the built step function is modelled as a
state machine over an abstract internal state `σ`.  One
`Step(nil, input)` call updates that state, performs a series of
invocations of the terminal reducing action installed by `XfrmSequence` —
recorded as a script of `(IsReduced(result), input)` pairs, where `result`
is the accumulator the transducer hands down — and reports whether the
accumulator it returns is `Reduced`.  `Result` (complete) has no effect on
the produced elements; the model counts its invocations.  Upstream
elements are `Option A` because Go code can observe a `nil` element. -/

/-- A step function built by applying a transducer to the terminal
reducing action, as observed by the adapter. -/
structure StepFn (sg A : Type) where
  step : sg → Option A → sg × List (Bool × Option A) × Bool

/-- The terminal reducing action of `XfrmSequence` applied to a script:
`buffer.add(input)` runs exactly when `!transduce.IsReduced(result)`, so
the values appended are those whose incoming accumulator is unreduced. -/
def emitsOf {A : Type} (script : List (Bool × Option A)) : List (Option A) :=
  (script.filter (fun p => !p.1)).map Prod.snd

/-- One `Step` call of the shared step function, as recorded during
realization. -/
structure CallRec (A : Type) where
  script : List (Bool × Option A)
  red : Bool

/-- The outcome of one run of the `(*xfrmSeq).Seq` realization loop:
the `Step` calls made, the materialized buffer (`bufferedColl`), the
lazily attached child node's upstream (`nil` when no child was attached),
the shared step state afterwards, the number of `Result` invocations, and
the `completed` flag. -/
structure RealRes (sg A : Type) where
  calls : List (CallRec A)
  vals : List (Option A)
  child : Option (Option A × List (Option A))
  stOut : sg
  resCalls : Nat
  completed : Bool

/-- The realization loop of `(*xfrmSeq).Seq` for an unrealized node with
non-`nil` upstream `x :: rest` (the constructor and the child-attach site
both guarantee `coll != nil`).  Each iteration steps the shared function on
the next upstream element and advances upstream; if the buffer became
non-empty, the node materializes it, attaching an unrealized child
carrying the remaining upstream only when upstream is not exhausted and no
reduced signal occurred; on a reduced signal or on exhaustion it calls
`Result` once and sets `completed`; otherwise it loops. -/
def realize {sg A : Type} (f : StepFn sg A) :
    sg → Option A → List (Option A) → RealRes sg A
  | st, x, rest =>
    match f.step st x with
    | (st', script, red) =>
      if (emitsOf script).isEmpty then
        if red then ⟨[⟨script, red⟩], [], none, st', 1, true⟩
        else
          match rest with
          | [] => ⟨[⟨script, red⟩], [], none, st', 1, true⟩
          | y :: ys =>
            let r := realize f st' y ys
            ⟨⟨script, red⟩ :: r.calls, r.vals, r.child, r.stOut, r.resCalls,
              r.completed⟩
      else
        if red then ⟨[⟨script, red⟩], emitsOf script, none, st', 1, true⟩
        else
          match rest with
          | [] => ⟨[⟨script, red⟩], emitsOf script, none, st', 1, true⟩
          | y :: ys => ⟨[⟨script, red⟩], emitsOf script, some (y, ys), st', 0, false⟩

lemma realize_child_shorter {sg A : Type} (f : StepFn sg A) :
    ∀ (rest : List (Option A)) (st : sg) (x y : Option A) (ys : List (Option A)),
      (realize f st x rest).child = some (y, ys) → ys.length < rest.length := by
  intro rest
  induction rest with
  | nil =>
      intro st x y ys h
      exfalso
      revert h
      rw [realize]
      rcases f.step st x with ⟨st', script, red⟩
      by_cases he : (emitsOf script).isEmpty <;> by_cases hr : red <;>
        simp [he, hr]
  | cons z zs ih =>
      intro st x y ys h
      revert h
      rw [realize]
      rcases f.step st x with ⟨st', script, red⟩
      by_cases he : (emitsOf script).isEmpty <;> by_cases hr : red <;>
        simp only [he, hr, if_true, if_false, Bool.false_eq_true, ite_false, ite_true]
      · intro h
        simp at h
      · intro h
        have hlt := ih st' z y ys (by simpa using h)
        have hc : (z :: zs).length = zs.length + 1 := rfl
        omega
      · intro h
        simp at h
      · intro h
        simp at h
        obtain ⟨h1, h2⟩ := h
        simp [h2.symm]

/-- The realized results of the whole chain of transducing nodes spawned
from one `XfrmSequence` call: drive the first node, then recursively the
child it attached, and so on; concatenate the call traces and the
materialized buffers, and add up the `Result` invocations. -/
structure DriveRes (A : Type) where
  calls : List (CallRec A)
  vals : List (Option A)
  resCalls : Nat

def driveChain {sg A : Type} (f : StepFn sg A) (st : sg) (x : Option A)
    (rest : List (Option A)) : DriveRes A :=
  let r := realize f st x rest
  match h : r.child with
  | none => ⟨r.calls, r.vals, r.resCalls⟩
  | some (y, ys) =>
      let d := driveChain f r.stOut y ys
      ⟨r.calls ++ d.calls, r.vals ++ d.vals, r.resCalls + d.resCalls⟩
termination_by rest.length
decreasing_by exact realize_child_shorter f rest st x y ys h

/-- A transducing node's externally visible lifecycle state: unrealized
(holding the shared step state and its upstream), realized with a
materialized buffer (`bufferedColl != nil`), or completed with an empty
buffer (`Seq` returns `nil` permanently). -/
inductive XNodeSt (sg A : Type) where
  | unrealized (st : sg) (x : Option A) (rest : List (Option A))
  | buffered (vals : List (Option A))
      (child : Option (sg × Option A × List (Option A))) (completed : Bool)
  | completedEmpty

/-- Go `(*xfrmSeq).Seq` as a state transition (under the node's lock): the
guard `s.bufferedColl != nil || s.completed` returns immediately without
re-entering the loop; an unrealized node runs the realization loop once.
The second component counts the `Result` invocations performed. -/
def xnodeSeq {sg A : Type} (f : StepFn sg A) : XNodeSt sg A → XNodeSt sg A × Nat
  | .unrealized st x rest =>
      let r := realize f st x rest
      if r.vals.isEmpty then (.completedEmpty, r.resCalls)
      else (.buffered r.vals (r.child.map (fun p => (r.stOut, p.1, p.2))) r.completed,
        r.resCalls)
  | n => (n, 0)

/-- A source argument of `XfrmSequence` as the claims distinguish them:
the literal `nil` `Sequence`; a non-`nil` sequence that converts to
absence (e.g. a `lazySeq` realizing to empty: its `First()` is `nil` and
its `Next()` is `nil`, so the realization loop observes the single pull
`(nil, [])`); or a materialized non-empty sequence. -/
inductive GoSrc (A : Type) where
  | nilSrc
  | lazyEmptySrc
  | consSrc (x : Option A) (rest : List (Option A))

/-- What `Seq(source)` converts the source to (observationally):
`lazyEmptySrc` converts to absence. -/
def seqOfSrc {A : Type} : GoSrc A → Option (Option A × List (Option A))
  | .nilSrc => none
  | .lazyEmptySrc => none
  | .consSrc x rest => some (x, rest)

/-- Go `XfrmSequence`: only the literal `coll == nil` check guards the
absence fast path; any non-`nil` source gets a fresh buffer, the step
function built by applying the transducer (present exactly in the `some`
result — nothing is built on the `nil` path), and an unrealized node. -/
def XfrmSequence {sg A : Type} (f : StepFn sg A) (st : sg) (src : GoSrc A) :
    Option (StepFn sg A × XNodeSt sg A) :=
  match src with
  | .nilSrc => none
  | .lazyEmptySrc => some (f, .unrealized st none [])
  | .consSrc x rest => some (f, .unrealized st x rest)

/-- The loop of Go `Reduce` as invoked by `Transduce` with the built step
function's `Step` operation (threading real accumulators): it never
touches `Result`. -/
def reduceList {A B : Type} (stepT : B → Option A → B) : B → List (Option A) → B
  | ret, [] => ret
  | ret, v :: rest => reduceList stepT (stepT ret v) rest

/-- Go `Transduce`: build the step function, `Reduce` with its `Step`, then
invoke its `Result` on the final accumulator — the second component counts
the `Result` invocations (`reduceList` performs none; the final call is the
single one in the source). -/
def Transduce {A B : Type} (stepT : B → Option A → B) (resultT : B → B)
    (init : B) (coll : List (Option A)) : B × Nat :=
  let ret := reduceList stepT init coll
  (resultT ret, 1)

/-- The step function built from `transduce.Map(id)`: one terminal-action
invocation per input, with the threaded (unreduced) accumulator, never
signalling reduced. -/
def mapIdStep : StepFn Unit Int where
  step := fun st x => (st, [(false, x)], false)

end GoSeq

namespace GoSeq

lemma collect_none {S A : Type} (fst : S → A) (nxt : S → Option S) (m : Nat) :
    collect fst nxt m none = [] := by
  cases m <;> rfl

lemma collect_succ {S A : Type} (fst : S → A) (nxt : S → Option S) (n : Nat) (s : S) :
    collect fst nxt (n + 1) (some s) = fst s :: collect fst nxt n (nxt s) := rfl

/-- Step-1 ranges: with any fuel at least `n`, the range `[a, a+n)` yields
exactly the `n` consecutive integers from `a`. -/
lemma collect_range_pos (n : Nat) :
    ∀ (a : Int) (m : Nat), n ≤ m →
      collect RangeSeq.first RangeSeq.next m (rangeNew a (a + n) 1) =
        (List.range n).map (fun i : Nat => a + (i : Int)) := by
  induction n with
  | zero =>
    intro a m _
    have h : rangeNew a (a + (0 : Nat)) 1 = none := by
      simp [rangeNew]
    rw [h, collect_none]
    simp
  | succ k ih =>
    intro a m hm
    have hlive : rangeNew a (a + ((k : Int) + 1)) 1 = some ⟨a, a + ((k : Int) + 1), 1⟩ := by
      have : ¬ a ≥ a + ((k : Int) + 1) := by omega
      simp [rangeNew, this]
    obtain ⟨m', rfl⟩ : ∃ m', m = m' + 1 := ⟨m - 1, by omega⟩
    have hcast : ((k + 1 : Nat) : Int) = (k : Int) + 1 := by push_cast; ring
    rw [hcast, hlive, collect_succ]
    have hnext : RangeSeq.next ⟨a, a + ((k : Int) + 1), 1⟩ =
        rangeNew (a + 1) ((a + 1) + (k : Int)) 1 := by
      simp [RangeSeq.next]
      ring_nf
    rw [hnext]
    have := ih (a + 1) m' (by omega)
    rw [hcast] at *
    rw [this, List.range_succ_eq_map, List.map_cons, List.map_map]
    congr 1
    · simp [RangeSeq.first]
    · apply List.map_congr_left
      intro i _
      simp only [Function.comp_apply, Nat.succ_eq_add_one]
      push_cast
      ring

/-- Step-(-1) ranges: with any fuel at least `n`, the range from `a` down to
`a - n` (exclusive) yields exactly the `n` consecutive descending integers. -/
lemma collect_range_neg (n : Nat) :
    ∀ (a : Int) (m : Nat), n ≤ m →
      collect RangeSeq.first RangeSeq.next m (rangeNew a (a - n) (-1)) =
        (List.range n).map (fun i : Nat => a - (i : Int)) := by
  induction n with
  | zero =>
    intro a m _
    have h : rangeNew a (a - (0 : Nat)) (-1) = none := by
      simp [rangeNew]
    rw [h, collect_none]
    simp
  | succ k ih =>
    intro a m hm
    have hlive : rangeNew a (a - ((k : Int) + 1)) (-1) = some ⟨a, a - ((k : Int) + 1), -1⟩ := by
      have h1 : ¬ ((-1 : Int) > 0) := by omega
      have h2 : ¬ a ≤ a - ((k : Int) + 1) := by omega
      simp [rangeNew, h2]
    obtain ⟨m', rfl⟩ : ∃ m', m = m' + 1 := ⟨m - 1, by omega⟩
    have hcast : ((k + 1 : Nat) : Int) = (k : Int) + 1 := by push_cast; ring
    rw [hcast, hlive, collect_succ]
    have hnext : RangeSeq.next ⟨a, a - ((k : Int) + 1), -1⟩ =
        rangeNew (a - 1) ((a - 1) - (k : Int)) (-1) := by
      simp [RangeSeq.next]
      ring_nf
    rw [hnext]
    have := ih (a - 1) m' (by omega)
    rw [hcast] at *
    rw [this, List.range_succ_eq_map, List.map_cons, List.map_map]
    congr 1
    · simp [RangeSeq.first]
    · apply List.map_congr_left
      intro i _
      simp only [Function.comp_apply, Nat.succ_eq_add_one]
      push_cast
      ring

/-- A zero-step range with distinct bounds is the constant infinite sequence. -/
lemma collect_range_zero (a b : Int) (hab : a ≠ b) (m : Nat) :
    collect RangeSeq.first RangeSeq.next m (rangeNew a b 0) = List.replicate m a := by
  have hlive : rangeNew a b 0 = some ⟨a, b, 0⟩ := by
    simp [rangeNew, hab]
  induction m with
  | zero => rw [hlive]; rfl
  | succ k ihm =>
    have hnext : RangeSeq.next ⟨a, b, 0⟩ = rangeNew a b 0 := by
      simp [RangeSeq.next]
    rw [hlive, collect_succ, hnext, ihm]
    rfl

/-- C6: `Range(a,b,1)` with `a<b` yields exactly `a, a+1, …, b-1` and then
terminates; `Range(a,b,-1)` with `a>b` yields exactly `a, a-1, …, b+1`;
`Range(a,a,0)` is the absence marker; `Range(a,b,0)` with `a≠b` is the
infinite constant sequence at `a`; and `Next` always recomputes liveness
from `(start+step, end, step)` by the same three-way rule (`rangeNew`). -/
theorem range_construction_law :
    (∀ a b : Int, a < b → ∀ m : Nat, (b - a).toNat ≤ m →
      collect RangeSeq.first RangeSeq.next m (rangeNew a b 1) =
        (List.range (b - a).toNat).map (fun i : Nat => a + (i : Int)))
    ∧ (∀ a b : Int, b < a → ∀ m : Nat, (a - b).toNat ≤ m →
      collect RangeSeq.first RangeSeq.next m (rangeNew a b (-1)) =
        (List.range (a - b).toNat).map (fun i : Nat => a - (i : Int)))
    ∧ (∀ a : Int, rangeNew a a 0 = none)
    ∧ (∀ a b : Int, a ≠ b →
        rangeNew a b 0 = some ⟨a, b, 0⟩ ∧
        RangeSeq.next ⟨a, b, 0⟩ = some ⟨a, b, 0⟩ ∧
        RangeSeq.first ⟨a, b, 0⟩ = a ∧
        ∀ m : Nat, collect RangeSeq.first RangeSeq.next m (rangeNew a b 0) =
          List.replicate m a)
    ∧ (∀ r : RangeSeq, r.next = rangeNew (r.start + r.step) r.stop r.step) := by
  refine ⟨?_, ?_, ?_, ?_, ?_⟩
  · intro a b hab m hm
    have hb : b = a + ((b - a).toNat : Int) := by
      have := Int.toNat_of_nonneg (a := b - a) (by omega)
      omega
    rw [show rangeNew a b 1 = rangeNew a (a + ((b - a).toNat : Int)) 1 by rw [← hb]]
    exact collect_range_pos (b - a).toNat a m hm
  · intro a b hab m hm
    have hb : b = a - ((a - b).toNat : Int) := by
      have := Int.toNat_of_nonneg (a := a - b) (by omega)
      omega
    rw [show rangeNew a b (-1) = rangeNew a (a - ((a - b).toNat : Int)) (-1) by rw [← hb]]
    exact collect_range_neg (a - b).toNat a m hm
  · intro a
    simp [rangeNew]
  · intro a b hab
    refine ⟨by simp [rangeNew, hab], ?_, rfl, fun m => collect_range_zero a b hab m⟩
    simp [RangeSeq.next, rangeNew, hab]
  · intro r
    rfl

/-- Witness: `range_construction_law` applied at concrete inputs. -/
theorem range_construction_law_witness :
    collect RangeSeq.first RangeSeq.next 3 (rangeNew 0 3 1) = [0, 1, 2]
    ∧ collect RangeSeq.first RangeSeq.next 3 (rangeNew 5 2 (-1)) = [5, 4, 3]
    ∧ collect RangeSeq.first RangeSeq.next 4 (rangeNew 1 4 0) = [1, 1, 1, 1] := by
  obtain ⟨h1, h2, _, h4, _⟩ := range_construction_law
  refine ⟨?_, ?_, ?_⟩
  · have := h1 0 3 (by decide) 3 (by decide)
    simpa using this
  · have := h2 5 2 (by decide) 3 (by decide)
    simpa using this
  · have := (h4 1 4 (by decide)).2.2.2 4
    simpa using this

lemma collect_repeat_pos {A : Type} (x : A) :
    ∀ (n : Nat), 1 ≤ n → ∀ m : Nat, n ≤ m →
      collect RepeatSeq.first RepeatSeq.next m (some (repeatSeqNew (n : Int) x)) =
        List.replicate n x := by
  intro n
  induction n with
  | zero => intro h; omega
  | succ k ih =>
    intro _ m hm
    obtain ⟨m', rfl⟩ : ∃ m', m = m' + 1 := ⟨m - 1, by omega⟩
    rw [collect_succ]
    rcases Nat.eq_zero_or_pos k with rfl | hk
    · have hnext : RepeatSeq.next (repeatSeqNew ((0 + 1 : Nat) : Int) x) = none := by
        norm_num [RepeatSeq.next, repeatSeqNew, inf]
      rw [hnext, collect_none]
      rfl
    · have hgt : ((k + 1 : Nat) : Int) > 1 := by push_cast; omega
      have hnext : RepeatSeq.next (repeatSeqNew ((k + 1 : Nat) : Int) x) =
          some (repeatSeqNew ((k : Nat) : Int) x) := by
        simp only [RepeatSeq.next, repeatSeqNew, if_pos hgt]
        congr 2
        push_cast
        ring
      rw [hnext, ih hk m' (by omega)]
      rfl

lemma collect_repeat_inf {A : Type} (x : A) (m : Nat) :
    collect RepeatSeq.first RepeatSeq.next m (some (repeatSeqNew inf x)) =
      List.replicate m x := by
  induction m with
  | zero => rfl
  | succ k ihm =>
    have hnext : RepeatSeq.next (repeatSeqNew inf x) = some (repeatSeqNew inf x) := by
      simp [RepeatSeq.next, repeatSeqNew, inf]
    rw [collect_succ, hnext, ihm]
    rfl

/-- C10: `Repeat(n,x)` with `n ≥ 1` yields exactly `n` elements all equal to
`x`; `Repeat(-1,x)` hits the internal infinite sentinel (`inf = -1`) through
the public API, `Next` returning the same node forever; every other `n ≤ 0`
yields exactly one element, since the constructor never returns the absence
marker and `First` always returns the value. -/
theorem repeat_behaviour :
    (∀ (A : Type) (x : A) (n : Nat), 1 ≤ n → ∀ m : Nat, n ≤ m →
      collect RepeatSeq.first RepeatSeq.next m (some (Repeat (n : Int) x)) =
        List.replicate n x)
    ∧ (∀ (A : Type) (x : A),
        Repeat (-1) x = infiniteRepeatSeq x ∧
        RepeatSeq.next (Repeat (-1) x) = some (Repeat (-1) x) ∧
        RepeatSeq.first (Repeat (-1) x) = x ∧
        ∀ m : Nat, collect RepeatSeq.first RepeatSeq.next m (some (Repeat (-1) x)) =
          List.replicate m x)
    ∧ (∀ (A : Type) (x : A) (n : Int), n ≤ 0 → n ≠ -1 → ∀ m : Nat, 1 ≤ m →
        collect RepeatSeq.first RepeatSeq.next m (some (Repeat n x)) = [x])
    ∧ (∀ (A : Type) (x : A) (n : Int), RepeatSeq.first (Repeat n x) = x) := by
  refine ⟨?_, ?_, ?_, ?_⟩
  · intro A x n hn m hm
    exact collect_repeat_pos x n hn m hm
  · intro A x
    refine ⟨rfl, by simp [RepeatSeq.next, Repeat, repeatSeqNew, inf], rfl, ?_⟩
    intro m
    exact collect_repeat_inf x m
  · intro A x n hn hne m hm
    obtain ⟨m', rfl⟩ : ∃ m', m = m' + 1 := ⟨m - 1, by omega⟩
    rw [collect_succ]
    have hnext : RepeatSeq.next (Repeat n x) = none := by
      have h1 : ¬ n > 1 := by omega
      have h2 : ¬ n = inf := by simp [inf]; omega
      simp [RepeatSeq.next, Repeat, repeatSeqNew, h1, h2]
    rw [hnext, collect_none]
    rfl
  · intro A x n
    rfl

/-- Witness: `repeat_behaviour` applied at concrete inputs. -/
theorem repeat_behaviour_witness :
    collect RepeatSeq.first RepeatSeq.next 5 (some (Repeat 3 (7 : Int))) = [7, 7, 7]
    ∧ collect RepeatSeq.first RepeatSeq.next 2 (some (Repeat 0 (7 : Int))) = [7]
    ∧ collect RepeatSeq.first RepeatSeq.next 2 (some (Repeat (-2) (7 : Int))) = [7] := by
  obtain ⟨h1, _, h3, _⟩ := repeat_behaviour
  refine ⟨?_, ?_, ?_⟩
  · have := h1 Int 7 3 (by decide) 5 (by decide)
    simpa using this
  · exact h3 Int 7 0 (by decide) (by decide) 2 (by decide)
  · exact h3 Int 7 (-2) (by decide) (by decide) 2 (by decide)

/-- C4 (code evaluation at the failing input): the child node produced by
`Iterate(double, 2).Next()` is unrealized; calling `First()` on it invokes
`fn` (count 1), and calling `First()` again on the resulting node invokes
`fn` again (count 1, not 0), because `first()` never sets `realized`.
The returned values agree, but the user function is re-invoked on every
forcing, contradicting the claimed memoization. -/
theorem iterate_first_reinvokes_fn :
    (iterNext (fun n : Int => n + n) 0 (iterateNew 0 2)).1 = .mk false 0 2 none
    ∧ iterFirst (fun n : Int => n + n) (.mk false 0 2 none) =
        (4, .mk false 4 2 none, 1)
    ∧ iterFirst (fun n : Int => n + n) (.mk false 4 2 none) =
        (4, .mk false 4 2 none, 1) := by
  refine ⟨rfl, rfl, rfl⟩

/-- C8 counterexample: `Cycle` of an empty (nil) anchor is a real node, not
the absence marker — converting it to a sequence does not yield absence —
and its `First()` panics with a nil dereference instead of signalling a
terminated empty sequence; its `Next()` produces another such node, so the
traversal neither terminates nor stays panic-free. -/
theorem cycle_empty_anchor_counterexample :
    cycleSeq none = CyS.cyc none none
    ∧ cysSeqConv (cycleSeq none) = some (CyS.cyc none none)
    ∧ CyS.firstE (cycleSeq none) = .error GoPanic.nilDeref
    ∧ CyS.nextE (cycleSeq none) = some (cycleSeq none) := by
  refine ⟨rfl, rfl, rfl, rfl⟩

lemma forceIter_forced {C : Type} (r : Option C) :
    ∀ k : Nat, forceIter (⟨none, r⟩ : LazyNode C) k = (⟨none, r⟩, 0) := by
  intro k
  induction k with
  | zero => rfl
  | succ j ih => simp [forceIter, lazyNodeSeq, ih]

/-- C5: a `LazySeq` node invokes its producer at most once over any series
of `Seq`/`First`/`Next` calls; the first force discards the producer,
recursively unwraps any chain of nested thunk results, and memoizes the
resulting non-thunk sequence permanently; once forced, further operations
change nothing and invoke nothing; and an absence result makes `First` and
`Next` return absence permanently. -/
theorem lazyseq_memoization :
    (∀ (C : Type) (f : Unit → LVal C) (k : Nat), (forceIter (LazySeq f) k).2 ≤ 1)
    ∧ (∀ (C : Type) (f : Unit → LVal C),
        lazyNodeSeq (LazySeq f) = (unwrap (f ()), ⟨none, unwrap (f ())⟩, 1))
    ∧ (∀ (C : Type) (r : Option C),
        lazyNodeSeq (⟨none, r⟩ : LazyNode C) = (r, ⟨none, r⟩, 0))
    ∧ (∀ (C : Type) (f : Unit → LVal C),
        unwrap (LVal.lazyUnforced f) = unwrap (f ()))
    ∧ (∀ (C : Type) (r : Option C), unwrap (LVal.lazyForced r) = r)
    ∧ (∀ (C E : Type) (cFirst : C → Option E) (cNext : C → Option C),
        lazyFirst cFirst (⟨none, none⟩ : LazyNode C) = (none, ⟨none, none⟩, 0)
        ∧ lazyNext cNext (⟨none, none⟩ : LazyNode C) = (none, ⟨none, none⟩, 0)) := by
  refine ⟨?_, fun C f => rfl, fun C r => rfl, fun C f => rfl, fun C r => rfl,
    fun C E cFirst cNext => ⟨rfl, rfl⟩⟩
  intro C f k
  cases k with
  | zero => simp [forceIter]
  | succ j => simp [forceIter, lazyNodeSeq, LazySeq, forceIter_forced]

theorem reduceLoop_eq_foldl {A B : Type} (f : B → A → B) :
    ∀ (c : Cons A) (ret : B), reduceLoop f ret c = (consToList (some c)).foldl f ret
  | .mk v none, ret => by simp [reduceLoop, consToList]
  | .mk v (some nxt), ret => by
      have hc : consToList (some (Cons.mk v (some nxt))) = v :: consToList (some nxt) := by
        simp [consToList]
      rw [hc, List.foldl_cons]
      simpa [reduceLoop] using reduceLoop_eq_foldl f nxt (f ret v)

lemma consToList_foldl_consRF {A : Type} :
    ∀ (l : List A) (acc : Option (Cons A)),
      consToList (l.foldl consRF acc) = l.reverse ++ consToList acc := by
  intro l
  induction l with
  | nil => intro acc; simp
  | cons x xs ih =>
      intro acc
      simp only [List.foldl_cons, List.reverse_cons, List.append_assoc]
      rw [ih]
      simp [consRF, consNew, consToList]

/-- C7: `Reduce` threads the accumulator through `fn` once per element in
sequence order (it equals the left fold over the element list) and returns
`init` unchanged on an absence source; consequently reducing with cons onto
the empty sequence and then reversing reproduces exactly the elements in
order. -/
theorem reduce_folds_in_order :
    (∀ (A B : Type) (f : B → A → B) (init : B),
        Reduce f init (none : Option (Cons A)) = init)
    ∧ (∀ (A B : Type) (f : B → A → B) (init : B) (s : Option (Cons A)),
        Reduce f init s = (consToList s).foldl f init)
    ∧ (∀ (A : Type) (s : Option (Cons A)),
        (consToList (Reduce consRF none s)).reverse = consToList s) := by
  have h2 : ∀ (A B : Type) (f : B → A → B) (init : B) (s : Option (Cons A)),
      Reduce f init s = (consToList s).foldl f init := by
    intro A B f init s
    cases s with
    | none => simp [Reduce, consToList]
    | some c => exact reduceLoop_eq_foldl f c init
  refine ⟨fun A B f init => rfl, h2, ?_⟩
  intro A s
  rw [h2, consToList_foldl_consRF]
  simp [consToList]

/-- C8 (amended): advancing a cycle node always produces a cycle node whose
cursor is the inner cursor's successor, or the original anchor when that
successor is absence (the reset rule), so a cycle over a non-empty anchor
never terminates; the first 7 elements of `Cycle(RangeUntil(3))` are
`0 1 2 0 1 2 0`; but cycling an empty anchor yields a non-absence node
whose `First` panics and whose `Next` reproduces the same node, rather
than a terminated empty result. -/
theorem cycle_behaviour_amended :
    collectE 7 (some (cycleSeq ((RangeUntil 3).map CyS.rng))) =
      .ok [0, 1, 2, 0, 1, 2, 0]
    ∧ (∀ (all : Option CyS) (cur : CyS),
        CyS.nextE (CyS.cyc all (some cur)) =
          some (.cyc all (match CyS.nextE cur with | none => all | some s => some s)))
    ∧ CyS.firstE (cycleSeq none) = .error GoPanic.nilDeref
    ∧ CyS.nextE (cycleSeq none) = some (cycleSeq none) := by
  refine ⟨rfl, fun all cur => rfl, rfl, rfl⟩


lemma collect_sliceS {E : Type} :
    ∀ (xs : List E) (x : E),
      collect SeqRep.firstE SeqRep.nextE (xs.length + 1) (some (SeqRep.sliceS x xs)) =
        (x :: xs).map SElem.v := by
  intro xs
  induction xs with
  | nil => intro x; rfl
  | cons y ys ih =>
      intro x
      have hn : SeqRep.nextE (SeqRep.sliceS x (y :: ys)) = some (.sliceS y ys) := rfl
      simp only [List.length_cons, collect_succ, hn, ih y, SeqRep.firstE, List.map_cons]

lemma collect_runesS {E : Type} :
    ∀ (cs : List Char) (c : Char),
      collect SeqRep.firstE SeqRep.nextE (cs.length + 1)
          (some (SeqRep.runesS c cs : SeqRep E)) =
        (c :: cs).map SElem.r := by
  intro cs
  induction cs with
  | nil => intro c; rfl
  | cons d ds ih =>
      intro c
      have hn : SeqRep.nextE (SeqRep.runesS c (d :: ds) : SeqRep E) =
          some (.runesS d ds) := rfl
      simp only [List.length_cons, collect_succ, hn, ih d, SeqRep.firstE, List.map_cons]

lemma collect_mapS {E : Type} :
    ∀ (es : List (E × E)) (e : E × E),
      collect SeqRep.firstE SeqRep.nextE (es.length + 1) (some (SeqRep.mapS e es)) =
        (e :: es).map SElem.kv := by
  intro es
  induction es with
  | nil => intro e; rfl
  | cons d ds ih =>
      intro e
      have hn : SeqRep.nextE (SeqRep.mapS e (d :: ds)) = some (.mapS d ds) := rfl
      simp only [List.length_cons, collect_succ, hn, ih d, SeqRep.firstE, List.map_cons]

/-- C9: converting a value that is not nil, not `Seqable`, not a `Sequence`
and not adaptable fails with an error identifying the offending value's
type; already-sequence values are returned unchanged, `Seqable` values
delegate, and adaptable slices/strings/maps convert successfully into a
view that reproduces exactly the source's elements (the source is read,
never altered). -/
theorem seq_conversion_behaviour :
    (∀ (E : Type) (t : String),
        Seq (GoVal.otherV t : GoVal E) = .error (ConvErr.unsupportedType t))
    ∧ (∀ (E : Type) (s : SeqRep E), Seq (GoVal.seqV s) = .ok (some s))
    ∧ (∀ (E : Type) (s : Option (SeqRep E)), Seq (GoVal.seqableV s) = .ok s)
    ∧ (∀ (E : Type), Seq (GoVal.nilV : GoVal E) = .ok none)
    ∧ (∀ (E : Type) (l : List E), Seq (GoVal.sliceV l) = .ok (sliceSequence l))
    ∧ (∀ (E : Type) (x : E) (xs : List E),
        collect SeqRep.firstE SeqRep.nextE (xs.length + 1) (sliceSequence (x :: xs)) =
          (x :: xs).map SElem.v)
    ∧ (∀ (E : Type) (cs : List Char),
        Seq (GoVal.strV cs : GoVal E) = .ok (runeSequence cs))
    ∧ (∀ (E : Type) (c : Char) (cs : List Char),
        collect SeqRep.firstE SeqRep.nextE (cs.length + 1)
            (runeSequence (c :: cs) : Option (SeqRep E)) =
          (c :: cs).map SElem.r)
    ∧ (∀ (E : Type) (es : List (E × E)), Seq (GoVal.mapV es) = .ok (mapSequence es))
    ∧ (∀ (E : Type) (e : E × E) (es : List (E × E)),
        collect SeqRep.firstE SeqRep.nextE (es.length + 1) (mapSequence (e :: es)) =
          (e :: es).map SElem.kv) := by
  refine ⟨fun E t => rfl, fun E s => rfl, fun E s => rfl, fun E => rfl,
    fun E l => rfl, ?_, fun E cs => rfl, ?_, fun E es => rfl, ?_⟩
  · intro E x xs
    exact collect_sliceS xs x
  · intro E c cs
    exact collect_runesS cs c
  · intro E e es
    exact collect_mapS es e

lemma realize_props {sg A : Type} (f : StepFn sg A) :
    ∀ (rest : List (Option A)) (st : sg) (x : Option A),
      ((realize f st x rest).child = none → (realize f st x rest).resCalls = 1)
      ∧ ((realize f st x rest).child ≠ none → (realize f st x rest).resCalls = 0
          ∧ (realize f st x rest).calls.all (fun c => !c.red) = true)
      ∧ (realize f st x rest).vals =
          (realize f st x rest).calls.flatMap (fun c => emitsOf c.script)
      ∧ (realize f st x rest).calls.dropLast.all (fun c => !c.red) = true
      ∧ (realize f st x rest).calls ≠ [] := by
  intro rest
  induction rest with
  | nil =>
      intro st x
      rw [realize]
      rcases f.step st x with ⟨st', script, red⟩
      cases red
      · by_cases he : (emitsOf script).isEmpty
        · have hee := List.isEmpty_iff.mp he
          simp [he, hee]
        · simp [he]
      · by_cases he : (emitsOf script).isEmpty
        · have hee := List.isEmpty_iff.mp he
          simp [he, hee]
        · simp [he]
  | cons z zs ih =>
      intro st x
      rw [realize]
      rcases f.step st x with ⟨st', script, red⟩
      cases red
      · by_cases he : (emitsOf script).isEmpty
        · have hee := List.isEmpty_iff.mp he
          obtain ⟨ih1, ih2, ih3, ih4, ih5⟩ := ih st' z
          obtain ⟨w, ws, hws⟩ := List.exists_cons_of_ne_nil ih5
          simp only [he, if_true, Bool.false_eq_true, if_false, ite_true, ite_false]
          refine ⟨ih1, ?_, ?_, ?_, by simp⟩
          · intro h
            refine ⟨(ih2 h).1, ?_⟩
            simp only [List.all_cons, Bool.not_false, Bool.true_and]
            exact (ih2 h).2
          · simpa [hee] using ih3
          · rw [hws, List.dropLast_cons₂, List.all_cons]
            rw [hws] at ih4
            simpa using ih4
        · simp [he]
      · by_cases he : (emitsOf script).isEmpty
        · have hee := List.isEmpty_iff.mp he
          simp [he, hee]
        · simp [he]

lemma driveChain_props {sg A : Type} (f : StepFn sg A) :
    ∀ (n : Nat) (rest : List (Option A)), rest.length ≤ n → ∀ (st : sg) (x : Option A),
      (driveChain f st x rest).resCalls = 1
      ∧ (driveChain f st x rest).vals =
          (driveChain f st x rest).calls.flatMap (fun c => emitsOf c.script)
      ∧ (driveChain f st x rest).calls.dropLast.all (fun c => !c.red) = true
      ∧ (driveChain f st x rest).calls ≠ [] := by
  intro n
  induction n with
  | zero =>
      intro rest hlen st x
      have hnil : rest = [] := List.length_eq_zero.mp (Nat.le_zero.mp hlen)
      subst hnil
      obtain ⟨h1, h2, h3, h4, h5⟩ := realize_props f [] st x
      rw [driveChain]
      split
      · next hchild => exact ⟨h1 hchild, h3, h4, h5⟩
      · next y ys hchild =>
          exact absurd (realize_child_shorter f [] st x y ys hchild) (by simp)
  | succ n ihn =>
      intro rest hlen st x
      obtain ⟨h1, h2, h3, h4, h5⟩ := realize_props f rest st x
      rw [driveChain]
      split
      · next hchild => exact ⟨h1 hchild, h3, h4, h5⟩
      · next y ys hchild =>
          have hlt : ys.length < rest.length :=
            realize_child_shorter f rest st x y ys hchild
          obtain ⟨d1, d2, d3, d4⟩ := ihn ys (by omega) (realize f st x rest).stOut y
          obtain ⟨hr0, hrall⟩ := h2 (by simp [hchild])
          obtain ⟨w, ws, hws⟩ := List.exists_cons_of_ne_nil d4
          dsimp only
          refine ⟨?_, ?_, ?_, by simp [d4]⟩
          · rw [hr0, d1]
          · rw [List.flatMap_append, ← h3, ← d2]
          · rw [hws, List.dropLast_append_cons, List.all_append, hrall]
            rw [hws] at d3
            simpa using d3

/-- C1 counterexample: a non-nil source whose conversion to a sequence
yields absence (a lazy sequence realizing to empty).  `XfrmSequence` does
not return the absence marker for it: it builds the step function and
returns a node, and forcing that node invokes the step operation once
(with a nil input) — here, with the `Map(id)` step function, the node even
realizes to a one-element sequence. -/
theorem xfrm_empty_converting_source_counterexample :
    seqOfSrc (GoSrc.lazyEmptySrc : GoSrc Int) = none
    ∧ XfrmSequence mapIdStep () GoSrc.lazyEmptySrc ≠ none
    ∧ (realize mapIdStep () none []).calls.length = 1
    ∧ (realize mapIdStep () none []).vals = [none] := by
  refine ⟨rfl, by simp [XfrmSequence], ?_, ?_⟩
  · rw [realize]
    rfl
  · rw [realize]
    rfl

/-- C1 (amended): `XfrmSequence` returns absence immediately exactly when
the source argument is literally nil; for any non-nil source — including
one that converts to absence, such as a lazy sequence realizing to empty —
it builds the step function and returns an unrealized node, and forcing
that node invokes the step operation (once, with a nil input, for an
empty-realizing source). -/
theorem xfrm_nil_check_behaviour :
    (∀ (sg A : Type) (f : StepFn sg A) (st : sg),
        XfrmSequence f st (GoSrc.nilSrc : GoSrc A) = none)
    ∧ (∀ (sg A : Type) (f : StepFn sg A) (st : sg),
        XfrmSequence f st (GoSrc.lazyEmptySrc : GoSrc A) =
          some (f, XNodeSt.unrealized st none [])
        ∧ (realize f st none []).calls.length = 1)
    ∧ (∀ (sg A : Type) (f : StepFn sg A) (st : sg) (x : Option A)
        (rest : List (Option A)),
        XfrmSequence f st (GoSrc.consSrc x rest) =
          some (f, XNodeSt.unrealized st x rest)) := by
  refine ⟨fun sg A f st => rfl, ?_, fun sg A f st x rest => rfl⟩
  intro sg A f st
  refine ⟨rfl, ?_⟩
  rw [realize]
  rcases f.step st none with ⟨st', script, red⟩
  by_cases he : (emitsOf script).isEmpty <;> cases red <;> simp [he]

/-- C2: over the whole chain of transducing nodes spawned from one
`XfrmSequence` call, the shared step function's `Result` (complete)
operation runs exactly once — for every step function, shared state and
finite upstream, whether the chain ends by a reduced signal or by upstream
exhaustion; a node that is already realized (buffered) or completed
performs no further `Result` call on a second `Seq`; and `Transduce`
invokes `Result` exactly once, after the reduction finishes. -/
theorem complete_invoked_exactly_once :
    (∀ (sg A : Type) (f : StepFn sg A) (st : sg) (x : Option A)
        (rest : List (Option A)), (driveChain f st x rest).resCalls = 1)
    ∧ (∀ (sg A : Type) (f : StepFn sg A) (n : XNodeSt sg A),
        xnodeSeq f (xnodeSeq f n).1 = ((xnodeSeq f n).1, 0))
    ∧ (∀ (A B : Type) (stepT : B → Option A → B) (resultT : B → B) (init : B)
        (coll : List (Option A)), (Transduce stepT resultT init coll).2 = 1) := by
  refine ⟨?_, ?_, fun A B stepT resultT init coll => rfl⟩
  · intro sg A f st x rest
    exact (driveChain_props f rest.length rest le_rfl st x).1
  · intro sg A f n
    cases n with
    | unrealized st x rest =>
        by_cases h : (realize f st x rest).vals.isEmpty <;> simp [xnodeSeq, h]
    | buffered vals child completed => rfl
    | completedEmpty => rfl

/-- C3: across the whole chain, the output buffer receives exactly the
values whose incoming accumulator was not reduced (the terminal reducing
action suppresses the rest), and a reduced signal can occur only at the
very last step call of the chain — every earlier call is unreduced — so no
element is ever appended after a reduced signal. -/
theorem no_element_after_reduced :
    ∀ (sg A : Type) (f : StepFn sg A) (st : sg) (x : Option A)
      (rest : List (Option A)),
      (driveChain f st x rest).vals =
        (driveChain f st x rest).calls.flatMap (fun c => emitsOf c.script)
      ∧ (driveChain f st x rest).calls.dropLast.all (fun c => !c.red) = true := by
  intro sg A f st x rest
  exact ⟨(driveChain_props f rest.length rest le_rfl st x).2.1,
    (driveChain_props f rest.length rest le_rfl st x).2.2.1⟩

end GoSeq
